import Mathlib

/-!
Shallow embedding of the LRU + TTL cache engine of this repository
(`CacheEntry`, `Cache`, `NewCache`, `Get`, `Set`, `Delete`, `Clear`,
`Stats`, `Cleanup`, `removeEntry`, `evictLRU`, `calculateHitRate` in
`src/main.go`), together with proofs of the specification's claims
about it.

Modelling choices:

* Time is an abstract `Nat` tick.  Each operation takes the current time
  `now` as a parameter; the several `time.Now()` calls inside one
  operation are identified.  Go's `time.Now().After(t)` is `t < now`.
* The Go `map[string]*CacheEntry` index is an association list with
  unique keys (uniqueness is part of the cache invariant).  Go `delete`
  is `eraseKey`, assignment `m[k] = e` is `mapInsert`.
* The intrusive doubly-linked `container/list` recency list stores
  `*CacheEntry` pointers; here `lru` is the list of the keys of those
  entries, front = most recently used.  The entry sitting behind an lru
  node is recovered through the index, which is faithful because every
  node's entry is indexed under its own key (cache invariant).
  `removeEntry` mirrors the Go function: it erases `entry.Key` from
  both structures and decrements `currentSize`.
* The unbounded eviction loop in `Set` runs at most `lru.length` times,
  because each iteration removes one list node; it is therefore modelled
  by structural recursion on that bound used as fuel, re-checking the
  original loop guard at every step.
* Go `int` is `Int`; the `float64` division in `calculateHitRate` is
  modelled as exact division in `ℚ`.
* Byte slices (`[]byte` values) are lists of naturals.
-/

namespace DistCache

abbrev Key := String

abbrev Value := List Nat

/-- Go struct `CacheEntry` (src/main.go): one cached item. -/
structure CacheEntry where
  key : Key
  value : Value
  expiresAt : Option Nat
  createdAt : Nat
  accessCount : Nat
  lastAccessed : Nat
deriving DecidableEq, Repr

/-- Go struct `Cache`: the key → entry index, the recency list
(front = most recently used), and the size bookkeeping. -/
structure Cache where
  data : List (Key × CacheEntry)
  lru : List Key
  maxSize : Int
  currentSize : Int
deriving DecidableEq, Repr

/-- Go `NewCache`: builds an empty cache with the given maximum size.
No validation of `maxSize` is performed. -/
def NewCache (maxSize : Int) : Cache :=
  { data := [], lru := [], maxSize := maxSize, currentSize := 0 }

/-- Go map read `entry, exists := c.data[key]` on the association list. -/
def lookupEntry (key : Key) : List (Key × CacheEntry) → Option CacheEntry
  | [] => none
  | kv :: rest => if kv.1 = key then some kv.2 else lookupEntry key rest

/-- Go `delete(c.data, key)` on the association list. -/
def eraseKey (key : Key) (d : List (Key × CacheEntry)) : List (Key × CacheEntry) :=
  d.filter (fun kv => kv.1 != key)

/-- Go map write `c.data[key] = entry` (replace-or-insert). -/
def mapInsert (key : Key) (e : CacheEntry) (d : List (Key × CacheEntry)) :
    List (Key × CacheEntry) :=
  (key, e) :: eraseKey key d

/-- Go condition `entry.ExpiresAt != nil && time.Now().After(*entry.ExpiresAt)`. -/
def isExpired (now : Nat) (e : CacheEntry) : Bool :=
  match e.expiresAt with
  | some t => decide (t < now)
  | none => false

/-- Go `removeEntry`: unlink the entry's recency node, delete its key
from the index, decrement the size. -/
def removeEntry (c : Cache) (e : CacheEntry) : Cache :=
  { c with lru := c.lru.erase e.key,
           data := eraseKey e.key c.data,
           currentSize := c.currentSize - 1 }

/-- Removal addressed by key; `removeEntry c e` is `removeKey e.key c`. -/
def removeKey (k : Key) (c : Cache) : Cache :=
  { c with lru := c.lru.erase k,
           data := eraseKey k c.data,
           currentSize := c.currentSize - 1 }

/-- Go `Get`: not-found on a missing key; lazy removal plus not-found on
an expired key; otherwise bump the access statistics, move the entry's
node to the front of the recency list and return the value. -/
def Get (now : Nat) (key : Key) (c : Cache) : Option Value × Cache :=
  match lookupEntry key c.data with
  | none => (none, c)
  | some entry =>
    if isExpired now entry then
      (none, removeEntry c entry)
    else
      let entry' := { entry with accessCount := entry.accessCount + 1, lastAccessed := now }
      (some entry.value,
        { c with data := mapInsert key entry' c.data, lru := key :: c.lru.erase key })

/-- Go `evictLRU`: remove the entry held by the back recency node, if any. -/
def evictLRU (c : Cache) : Cache :=
  match c.lru.getLast? with
  | none => c
  | some k =>
    match lookupEntry k c.data with
    | some e => removeEntry c e
    | none => c

/-- Go loop `for c.currentSize > c.maxSize && c.lru.Len() > 0 { c.evictLRU() }`,
run with explicit fuel (`Set` passes the recency-list length, which
bounds the iteration count since every iteration removes one node). -/
def evictLoop : Nat → Cache → Cache
  | 0, c => c
  | fuel + 1, c =>
    if c.maxSize < c.currentSize ∧ 0 < c.lru.length then
      evictLoop fuel (evictLRU c)
    else
      c

/-- The entry Go `Set` constructs: zero access count, creation and
access stamps at `now`, `expiresAt = now + ttl` when a TTL is supplied,
absent otherwise. -/
def freshEntry (now : Nat) (key : Key) (value : Value) (ttl : Option Nat) : CacheEntry :=
  { key := key, value := value, expiresAt := ttl.map (fun d => now + d),
    createdAt := now, accessCount := 0, lastAccessed := now }

/-- Go `Set`: drop any existing entry for the key, build a fresh entry,
install it at the front of the recency list and in the index, then
evict from the back while over capacity. -/
def Set (now : Nat) (key : Key) (value : Value) (ttl : Option Nat) (c : Cache) : Cache :=
  let c1 :=
    match lookupEntry key c.data with
    | some e => removeEntry c e
    | none => c
  let c2 :=
    { c1 with data := mapInsert key (freshEntry now key value ttl) c1.data,
              lru := key :: c1.lru,
              currentSize := c1.currentSize + 1 }
  evictLoop c2.lru.length c2

/-- Go `Delete`: remove the entry if physically present (no expiration
check) and report whether one was removed. -/
def Delete (key : Key) (c : Cache) : Bool × Cache :=
  match lookupEntry key c.data with
  | some e => (true, removeEntry c e)
  | none => (false, c)

/-- Go `Clear`: reset both structures and the size. -/
def Clear (c : Cache) : Cache :=
  { c with data := [], lru := [], currentSize := 0 }

/-- One iteration of Go `Cleanup`'s range loop: on an expired entry,
`removeEntry` (which already deletes the key from the index) followed by
a second `delete(c.data, key)`, and increment the expired counter. -/
def cleanupStep (now : Nat) (acc : Nat × Cache) (kv : Key × CacheEntry) : Nat × Cache :=
  if isExpired now kv.2 then
    let c1 := removeEntry acc.2 kv.2
    (acc.1 + 1, { c1 with data := eraseKey kv.1 c1.data })
  else
    acc

/-- Go `Cleanup`: scan every indexed entry, remove the expired ones,
return how many were removed.  (Go map iteration only ever removes the
key currently being visited, so iterating over the entry list as it
stood on entry is faithful.) -/
def Cleanup (now : Nat) (c : Cache) : Nat × Cache :=
  c.data.foldl (cleanupStep now) (0, c)

/-- Go `calculateHitRate`: 0 when no access was ever recorded, otherwise
the number of entries with a positive access count divided by the number
of live entries. -/
def calculateHitRate (c : Cache) : ℚ :=
  let totalRequests := (c.data.map (fun kv => kv.2.accessCount)).sum
  let totalHits := (c.data.filter (fun kv => decide (0 < kv.2.accessCount))).length
  if totalRequests = 0 then 0 else (totalHits : ℚ) / (c.data.length : ℚ)

/-- The snapshot returned by Go `Stats`. -/
structure CacheStats where
  totalKeys : Nat
  maxSize : Int
  currentSize : Int
  totalAccesses : Nat
  totalSizeBytes : Nat
  hitRate : ℚ
deriving Repr

/-- Go `Stats`. -/
def Stats (c : Cache) : CacheStats :=
  { totalKeys := c.data.length,
    maxSize := c.maxSize,
    currentSize := c.currentSize,
    totalAccesses := (c.data.map (fun kv => kv.2.accessCount)).sum,
    totalSizeBytes := (c.data.map (fun kv => kv.2.value.length)).sum,
    hitRate := calculateHitRate c }

/-- A sequence of `Set` calls without TTL: each element carries the call
time, the key and the value. -/
def setAll (ops : List (Nat × Key × Value)) (c : Cache) : Cache :=
  ops.foldl (fun c o => Set o.1 o.2.1 o.2.2 none c) c

/-- The cache invariant: the recency list is duplicate-free and holds
exactly the keys of the index (as a permutation, hence with equal
cardinalities), `currentSize` is that cardinality, and every indexed
entry records its own index key. -/
def Invariant (c : Cache) : Prop :=
  c.lru.Nodup ∧
  c.lru.Perm (c.data.map Prod.fst) ∧
  c.currentSize = (c.data.length : Int) ∧
  ∀ kv ∈ c.data, kv.2.key = kv.1

instance : DecidablePred Invariant := fun c => by
  unfold Invariant
  infer_instance

/-- Iterated map deletion (used to describe what `Cleanup` does). -/
def eraseKeys (ks : List Key) (d : List (Key × CacheEntry)) : List (Key × CacheEntry) :=
  ks.foldl (fun d k => eraseKey k d) d

/-! ### Lemmas about the association-list index -/

theorem lookup_mem {k : Key} {e : CacheEntry} :
    ∀ {d : List (Key × CacheEntry)}, lookupEntry k d = some e → (k, e) ∈ d := by
  intro d
  induction d with
  | nil => intro h; simp [lookupEntry] at h
  | cons kv rest ih =>
    intro h
    rw [lookupEntry] at h
    split at h
    · rename_i hk
      cases h
      exact List.mem_cons.2 (Or.inl (by cases kv; simp_all))
    · exact List.mem_cons_of_mem _ (ih h)

theorem lookup_eq_none {k : Key} :
    ∀ {d : List (Key × CacheEntry)}, lookupEntry k d = none ↔ k ∉ d.map Prod.fst := by
  intro d
  induction d with
  | nil => simp [lookupEntry]
  | cons kv rest ih =>
    rw [lookupEntry]
    by_cases hk : kv.1 = k
    · simp [hk]
    · simp [hk, ih, Ne.symm hk]

theorem lookup_mem_keys {k : Key} {e : CacheEntry} {d : List (Key × CacheEntry)}
    (h : lookupEntry k d = some e) : k ∈ d.map Prod.fst :=
  List.mem_map.2 ⟨(k, e), lookup_mem h, rfl⟩

theorem mem_keys_lookup {k : Key} {d : List (Key × CacheEntry)}
    (h : k ∈ d.map Prod.fst) : ∃ e, lookupEntry k d = some e := by
  cases hl : lookupEntry k d with
  | some e => exact ⟨e, rfl⟩
  | none => exact absurd h (lookup_eq_none.1 hl)

theorem map_fst_eraseKey (k : Key) (d : List (Key × CacheEntry)) :
    (eraseKey k d).map Prod.fst = (d.map Prod.fst).filter (fun a => a != k) := by
  induction d with
  | nil => rfl
  | cons kv rest ih =>
    simp only [eraseKey] at ih ⊢
    rw [List.filter_cons, List.map_cons, List.filter_cons]
    by_cases hk : kv.1 = k
    · simp [hk, ih]
    · simp [hk, ih]

theorem not_mem_keys_eraseKey {k : Key} {d : List (Key × CacheEntry)} :
    k ∉ (eraseKey k d).map Prod.fst := by
  rw [map_fst_eraseKey]
  simp [List.mem_filter]

theorem mem_keys_eraseKey {k' k : Key} {d : List (Key × CacheEntry)} (hne : k' ≠ k) :
    k' ∈ (eraseKey k d).map Prod.fst ↔ k' ∈ d.map Prod.fst := by
  rw [map_fst_eraseKey]
  simp [List.mem_filter, hne]

theorem eraseKey_of_not_mem {k : Key} {d : List (Key × CacheEntry)}
    (h : k ∉ d.map Prod.fst) : eraseKey k d = d := by
  rw [eraseKey, List.filter_eq_self]
  intro kv hkv
  simp only [bne_iff_ne, ne_eq]
  intro hk
  exact h (List.mem_map.2 ⟨kv, hkv, hk⟩)

theorem eraseKey_idem {k : Key} {d : List (Key × CacheEntry)} :
    eraseKey k (eraseKey k d) = eraseKey k d :=
  eraseKey_of_not_mem not_mem_keys_eraseKey

theorem lookup_eraseKey_self {k : Key} {d : List (Key × CacheEntry)} :
    lookupEntry k (eraseKey k d) = none :=
  lookup_eq_none.2 not_mem_keys_eraseKey

theorem lookup_eraseKey_ne {k' k : Key} {d : List (Key × CacheEntry)} (hne : k' ≠ k) :
    lookupEntry k' (eraseKey k d) = lookupEntry k' d := by
  induction d with
  | nil => rfl
  | cons kv rest ih =>
    simp only [eraseKey] at ih ⊢
    rw [List.filter_cons]
    by_cases hk : kv.1 = k
    · have hno : ¬ k = k' := fun h => hne h.symm
      simp [hk, ih, lookupEntry, hno]
    · by_cases hk' : kv.1 = k'
      · simp [hk, hk', lookupEntry, hne]
      · simp [hk, hk', lookupEntry, ih]

theorem lookup_mapInsert_self {k : Key} {e : CacheEntry} {d : List (Key × CacheEntry)} :
    lookupEntry k (mapInsert k e d) = some e := by
  simp [mapInsert, lookupEntry]

theorem lookup_mapInsert_ne {k' k : Key} {e : CacheEntry} {d : List (Key × CacheEntry)}
    (hne : k' ≠ k) : lookupEntry k' (mapInsert k e d) = lookupEntry k' d := by
  have h : ¬ k = k' := fun h => hne h.symm
  simp only [mapInsert, lookupEntry, h, if_false]
  exact lookup_eraseKey_ne hne

theorem lookup_self_of_nodup {d : List (Key × CacheEntry)} :
    (d.map Prod.fst).Nodup → ∀ kv ∈ d, lookupEntry kv.1 d = some kv.2 := by
  induction d with
  | nil => intro _ kv h; simp at h
  | cons a rest ih =>
    intro hnd kv hkv
    rw [List.map_cons, List.nodup_cons] at hnd
    rw [lookupEntry]
    rcases List.mem_cons.1 hkv with h | h
    · subst h; simp
    · by_cases hk : a.1 = kv.1
      · exact absurd (hk ▸ List.mem_map.2 ⟨kv, h, rfl⟩) hnd.1
      · simp only [hk, if_false]
        exact ih hnd.2 kv h

theorem nodup_keys_inj {d : List (Key × CacheEntry)} {a b : Key × CacheEntry}
    (hnd : (d.map Prod.fst).Nodup) (ha : a ∈ d) (hb : b ∈ d) (h1 : a.1 = b.1) : a = b := by
  have h2 := lookup_self_of_nodup hnd a ha
  have h3 := lookup_self_of_nodup hnd b hb
  rw [h1, h3] at h2
  injection h2 with h4
  cases a; cases b
  simp_all

theorem filter_ne_of_not_mem {l : List Key} {k : Key} (h : k ∉ l) :
    l.filter (fun a => a != k) = l := by
  rw [List.filter_eq_self]
  intro a ha
  simp only [bne_iff_ne, ne_eq]
  intro hk
  exact h (hk ▸ ha)

theorem erase_eq_filter_of_nodup {l : List Key} (hnd : l.Nodup) (k : Key) :
    l.erase k = l.filter (fun a => a != k) := by
  induction l with
  | nil => rfl
  | cons a t ih =>
    rw [List.nodup_cons] at hnd
    rw [List.erase_cons, List.filter_cons]
    by_cases hk : a = k
    · subst hk
      simp [filter_ne_of_not_mem hnd.1]
    · have h1 : (a == k) = false := by simp [hk]
      have h2 : (a != k) = true := by simp [hk]
      rw [h1, h2, ih hnd.2]
      simp

theorem length_eraseKey_of_mem {k : Key} {d : List (Key × CacheEntry)}
    (hnd : (d.map Prod.fst).Nodup) (hk : k ∈ d.map Prod.fst) :
    (eraseKey k d).length = d.length - 1 := by
  have h1 : (eraseKey k d).length = ((d.map Prod.fst).filter (fun a => a != k)).length := by
    rw [← map_fst_eraseKey, List.length_map]
  rw [h1, ← erase_eq_filter_of_nodup hnd, List.length_erase_of_mem hk, List.length_map]

/-! ### Invariant preservation, operation by operation -/

theorem removeEntry_eq {c : Cache} {e : CacheEntry} : removeEntry c e = removeKey e.key c := rfl

theorem Invariant.nodup_keys {c : Cache} (h : Invariant c) : (c.data.map Prod.fst).Nodup :=
  h.2.1.nodup h.1

theorem Invariant.mem_lru_iff {c : Cache} {k : Key} (h : Invariant c) :
    k ∈ c.lru ↔ k ∈ c.data.map Prod.fst :=
  h.2.1.mem_iff

theorem Invariant.lru_length {c : Cache} (h : Invariant c) : c.lru.length = c.data.length := by
  have := h.2.1.length_eq
  simpa using this

theorem Invariant.entry_key {c : Cache} {k : Key} {e : CacheEntry} (h : Invariant c)
    (hl : lookupEntry k c.data = some e) : e.key = k :=
  h.2.2.2 (k, e) (lookup_mem hl)

theorem Invariant.size_eq {c : Cache} (h : Invariant c) :
    c.currentSize = (c.data.length : Int) := by
  obtain ⟨-, -, hsize, -⟩ := h
  exact hsize

theorem Invariant.size_nonneg {c : Cache} (h : Invariant c) : 0 ≤ c.currentSize := by
  rw [h.size_eq]
  exact Int.ofNat_nonneg _

theorem Invariant.data_nil_of_size_nonpos {c : Cache} (h : Invariant c)
    (hs : c.currentSize ≤ 0) : c.data = [] ∧ c.lru = [] ∧ c.currentSize = 0 := by
  have h0 : c.currentSize = 0 := le_antisymm hs h.size_nonneg
  have hlen : c.data.length = 0 := by
    have := h.size_eq
    omega
  have hdata : c.data = [] := List.length_eq_zero.1 hlen
  have hlru : c.lru = [] := List.length_eq_zero.1 (by rw [h.lru_length, hlen])
  exact ⟨hdata, hlru, h0⟩

theorem invariant_removeKey {c : Cache} {k : Key} (h : Invariant c)
    (hk : k ∈ c.data.map Prod.fst) : Invariant (removeKey k c) := by
  obtain ⟨hnd, hperm, hsize, hkeys⟩ := h
  have hknd : (c.data.map Prod.fst).Nodup := hperm.nodup hnd
  have hlen : (eraseKey k c.data).length = c.data.length - 1 := length_eraseKey_of_mem hknd hk
  have hpos : 0 < c.data.length := by
    have := List.length_pos_of_mem hk
    simpa using this
  refine ⟨hnd.erase k, ?_, ?_, ?_⟩
  · rw [removeKey]
    simp only
    rw [map_fst_eraseKey, ← erase_eq_filter_of_nodup hknd k]
    exact hperm.erase k
  · rw [removeKey]
    simp only
    rw [hlen, hsize]
    omega
  · intro kv hkv
    exact hkeys kv (List.mem_of_mem_filter hkv)

theorem invariant_insert {c : Cache} {k : Key} {e : CacheEntry}
    (h : Invariant c) (hk : k ∉ c.data.map Prod.fst) (he : e.key = k) :
    Invariant { c with data := mapInsert k e c.data,
                       lru := k :: c.lru,
                       currentSize := c.currentSize + 1 } := by
  obtain ⟨hnd, hperm, hsize, hkeys⟩ := h
  have hkl : k ∉ c.lru := fun hin => hk (hperm.mem_iff.1 hin)
  have hek : eraseKey k c.data = c.data := eraseKey_of_not_mem hk
  refine ⟨List.nodup_cons.2 ⟨hkl, hnd⟩, ?_, ?_, ?_⟩
  · simp only [mapInsert, hek, List.map_cons]
    exact hperm.cons k
  · simp only [mapInsert, hek, List.length_cons]
    rw [hsize]
    omega
  · intro kv hkv
    simp only [mapInsert, hek, List.mem_cons] at hkv
    rcases hkv with hkv | hkv
    · subst hkv; exact he
    · exact hkeys kv hkv

theorem invariant_touch {c : Cache} {k : Key} {e' : CacheEntry}
    (h : Invariant c) (hk : k ∈ c.data.map Prod.fst) (he : e'.key = k) :
    Invariant { c with data := mapInsert k e' c.data, lru := k :: c.lru.erase k } := by
  obtain ⟨hnd, hperm, hsize, hkeys⟩ := h
  have hknd : (c.data.map Prod.fst).Nodup := hperm.nodup hnd
  have hlen : (eraseKey k c.data).length = c.data.length - 1 := length_eraseKey_of_mem hknd hk
  have hpos : 0 < c.data.length := by
    have := List.length_pos_of_mem hk
    simpa using this
  refine ⟨?_, ?_, ?_, ?_⟩
  · exact List.nodup_cons.2 ⟨fun hin => ((hnd.mem_erase_iff).1 hin).1 rfl, hnd.erase k⟩
  · simp only [mapInsert, List.map_cons, map_fst_eraseKey]
    refine List.Perm.cons k ?_
    rw [← erase_eq_filter_of_nodup hknd k]
    exact hperm.erase k
  · simp only [mapInsert, List.length_cons]
    rw [hlen, hsize]
    omega
  · intro kv hkv
    simp only [mapInsert, List.mem_cons] at hkv
    rcases hkv with hkv | hkv
    · subst hkv; exact he
    · exact hkeys kv (List.mem_of_mem_filter hkv)

theorem invariant_clear {c : Cache} : Invariant (Clear c) := by
  refine ⟨List.nodup_nil, List.Perm.refl _, rfl, ?_⟩
  intro kv hkv
  simp [Clear] at hkv

theorem invariant_newCache (maxSize : Int) : Invariant (NewCache maxSize) := by
  refine ⟨List.nodup_nil, List.Perm.refl _, rfl, ?_⟩
  intro kv hkv
  simp [NewCache] at hkv

theorem invariant_evictLRU {c : Cache} (h : Invariant c) : Invariant (evictLRU c) := by
  unfold evictLRU
  split
  · exact h
  · split
    · rename_i k hl e he
      rw [removeEntry_eq, h.entry_key he]
      exact invariant_removeKey h (lookup_mem_keys he)
    · exact h

theorem evictLRU_maxSize {c : Cache} : (evictLRU c).maxSize = c.maxSize := by
  unfold evictLRU
  split
  · rfl
  · split
    · rfl
    · rfl

theorem evictLRU_lru_length {c : Cache} (h : Invariant c) (hne : 0 < c.lru.length) :
    (evictLRU c).lru.length = c.lru.length - 1 := by
  have hnil : c.lru ≠ [] := by
    intro hn
    rw [hn] at hne
    simp at hne
  unfold evictLRU
  split
  · rename_i hl
    rw [List.getLast?_eq_getLast c.lru hnil] at hl
    simp at hl
  · rename_i k hl
    split
    · rename_i e he
      have hmem : k ∈ c.lru := List.mem_of_mem_getLast? hl
      rw [removeEntry_eq, h.entry_key he]
      exact List.length_erase_of_mem hmem
    · rename_i hnone
      have hmem : k ∈ c.lru := List.mem_of_mem_getLast? hl
      obtain ⟨e, he⟩ := mem_keys_lookup (h.mem_lru_iff.1 hmem)
      rw [he] at hnone
      cases hnone

theorem invariant_evictLoop {c : Cache} (h : Invariant c) :
    ∀ fuel, Invariant (evictLoop fuel c) := by
  intro fuel
  induction fuel generalizing c with
  | zero => exact h
  | succ n ih =>
    rw [evictLoop]
    by_cases hg : c.maxSize < c.currentSize ∧ 0 < c.lru.length
    · rw [if_pos hg]
      exact ih (invariant_evictLRU h)
    · rw [if_neg hg]
      exact h

theorem evictLoop_maxSize : ∀ (fuel : Nat) (c : Cache), (evictLoop fuel c).maxSize = c.maxSize := by
  intro fuel
  induction fuel with
  | zero => intro c; rfl
  | succ n ih =>
    intro c
    rw [evictLoop]
    by_cases hg : c.maxSize < c.currentSize ∧ 0 < c.lru.length
    · rw [if_pos hg, ih, evictLRU_maxSize]
    · rw [if_neg hg]

theorem evictLoop_not_guard {c : Cache} (h : ¬(c.maxSize < c.currentSize ∧ 0 < c.lru.length)) :
    ∀ fuel, evictLoop fuel c = c := by
  intro fuel
  cases fuel with
  | zero => rfl
  | succ n => rw [evictLoop, if_neg h]

theorem evictLoop_bound :
    ∀ (fuel : Nat) (c : Cache), Invariant c → c.lru.length ≤ fuel → 0 ≤ c.maxSize →
      (evictLoop fuel c).currentSize ≤ c.maxSize := by
  intro fuel
  induction fuel with
  | zero =>
    intro c h hf h0
    have : c.lru.length = 0 := Nat.le_zero.1 hf
    have hd : c.data.length = 0 := by rw [← h.lru_length, this]
    rw [evictLoop, h.2.2.1, hd]
    exact h0
  | succ n ih =>
    intro c h hf h0
    rw [evictLoop]
    by_cases hg : c.maxSize < c.currentSize ∧ 0 < c.lru.length
    · rw [if_pos hg]
      have h' := invariant_evictLRU h
      have hlen := evictLRU_lru_length h hg.2
      have hfuel : (evictLRU c).lru.length ≤ n := by omega
      have hms : 0 ≤ (evictLRU c).maxSize := by rw [evictLRU_maxSize]; exact h0
      have := ih (evictLRU c) h' hfuel hms
      rw [evictLRU_maxSize] at this
      exact this
    · rw [if_neg hg]
      rcases not_and_or.1 hg with hg1 | hg2
      · omega
      · have hl0 : c.lru.length = 0 := by omega
        have hd : c.data.length = 0 := by rw [← h.lru_length, hl0]
        rw [h.2.2.1, hd]
        exact h0

theorem Set_lookup_none {now : Nat} {k : Key} {v : Value} {ttl : Option Nat} {c : Cache}
    (hl : lookupEntry k c.data = none) :
    Set now k v ttl c
      = evictLoop (c.lru.length + 1)
          { c with data := mapInsert k (freshEntry now k v ttl) c.data,
                   lru := k :: c.lru,
                   currentSize := c.currentSize + 1 } := by
  unfold Set
  rw [hl]
  rfl

theorem Set_lookup_some {now : Nat} {k : Key} {v : Value} {ttl : Option Nat} {c : Cache}
    {e : CacheEntry} (hl : lookupEntry k c.data = some e) (hek : e.key = k) :
    Set now k v ttl c
      = evictLoop ((removeKey k c).lru.length + 1)
          { removeKey k c with
              data := mapInsert k (freshEntry now k v ttl) (removeKey k c).data,
              lru := k :: (removeKey k c).lru,
              currentSize := (removeKey k c).currentSize + 1 } := by
  unfold Set
  rw [hl]
  show evictLoop (k :: (removeEntry c e).lru).length
      { data := mapInsert k (freshEntry now k v ttl) (removeEntry c e).data,
        lru := k :: (removeEntry c e).lru,
        maxSize := (removeEntry c e).maxSize,
        currentSize := (removeEntry c e).currentSize + 1 } = _
  rw [removeEntry_eq, hek]
  rfl

theorem invariant_set {now : Nat} {k : Key} {v : Value} {ttl : Option Nat} {c : Cache}
    (h : Invariant c) : Invariant (Set now k v ttl c) := by
  cases hl : lookupEntry k c.data with
  | none =>
    rw [Set_lookup_none hl]
    exact invariant_evictLoop (invariant_insert h (lookup_eq_none.1 hl) rfl) _
  | some e =>
    rw [Set_lookup_some hl (h.entry_key hl)]
    have h1 : Invariant (removeKey k c) := invariant_removeKey h (lookup_mem_keys hl)
    have h2 : k ∉ (removeKey k c).data.map Prod.fst := not_mem_keys_eraseKey
    exact invariant_evictLoop (invariant_insert h1 h2 rfl) _

theorem Set_maxSize {now : Nat} {k : Key} {v : Value} {ttl : Option Nat} {c : Cache} :
    (Set now k v ttl c).maxSize = c.maxSize := by
  unfold Set
  cases hl : lookupEntry k c.data
  all_goals simp only [evictLoop_maxSize]
  all_goals try rfl

theorem set_bound {now : Nat} {k : Key} {v : Value} {ttl : Option Nat} {c : Cache}
    (h : Invariant c) (h0 : 0 ≤ c.maxSize) :
    (Set now k v ttl c).currentSize ≤ c.maxSize := by
  cases hl : lookupEntry k c.data with
  | none =>
    rw [Set_lookup_none hl]
    have hI2 : Invariant { c with data := mapInsert k (freshEntry now k v ttl) c.data,
                                  lru := k :: c.lru, currentSize := c.currentSize + 1 } :=
      invariant_insert h (lookup_eq_none.1 hl) rfl
    exact evictLoop_bound (c.lru.length + 1) _ hI2 (by simp) h0
  | some e =>
    rw [Set_lookup_some hl (h.entry_key hl)]
    have h1 : Invariant (removeKey k c) := invariant_removeKey h (lookup_mem_keys hl)
    have h2 : k ∉ (removeKey k c).data.map Prod.fst := not_mem_keys_eraseKey
    have hI2 : Invariant
        { removeKey k c with
            data := mapInsert k (freshEntry now k v ttl) (removeKey k c).data,
            lru := k :: (removeKey k c).lru,
            currentSize := (removeKey k c).currentSize + 1 } :=
      invariant_insert h1 h2 rfl
    exact evictLoop_bound ((removeKey k c).lru.length + 1) _ hI2 (by simp) h0

theorem set_fresh {now : Nat} {k : Key} {v : Value} {ttl : Option Nat} {c : Cache}
    (h : Invariant c) (hk : k ∉ c.lru) (hcap : c.currentSize < c.maxSize) :
    Set now k v ttl c
      = { c with data := mapInsert k (freshEntry now k v ttl) c.data,
                 lru := k :: c.lru,
                 currentSize := c.currentSize + 1 } := by
  have hk' : k ∉ c.data.map Prod.fst := fun hm => hk (h.mem_lru_iff.2 hm)
  rw [Set_lookup_none (lookup_eq_none.2 hk')]
  apply evictLoop_not_guard
  intro hg
  have h1 : c.maxSize < c.currentSize + 1 := hg.1
  omega

theorem invariant_get {now : Nat} {k : Key} {c : Cache} (h : Invariant c) :
    Invariant (Get now k c).2 := by
  unfold Get
  split
  · exact h
  · rename_i e he
    by_cases hexp : isExpired now e = true
    · rw [if_pos hexp]
      show Invariant (removeEntry c e)
      rw [removeEntry_eq, h.entry_key he]
      exact invariant_removeKey h (lookup_mem_keys he)
    · rw [if_neg hexp]
      show Invariant { c with
        data := mapInsert k { e with accessCount := e.accessCount + 1, lastAccessed := now } c.data,
        lru := k :: c.lru.erase k }
      refine invariant_touch h (lookup_mem_keys he) ?_
      have hek : e.key = k := h.entry_key he
      exact hek

theorem invariant_delete {k : Key} {c : Cache} (h : Invariant c) :
    Invariant (Delete k c).2 := by
  unfold Delete
  split
  · rename_i e he
    show Invariant (removeEntry c e)
    rw [removeEntry_eq, h.entry_key he]
    exact invariant_removeKey h (lookup_mem_keys he)
  · exact h

/-! ### Cleanup -/

theorem cleanupStep_not_expired {now : Nat} {acc : Nat × Cache} {kv : Key × CacheEntry}
    (h : isExpired now kv.2 = false) : cleanupStep now acc kv = acc := by
  simp [cleanupStep, h]

theorem cleanupStep_expired {now n : Nat} {c : Cache} {kv : Key × CacheEntry}
    (hkey : kv.2.key = kv.1) (h : isExpired now kv.2 = true) :
    cleanupStep now (n, c) kv = (n + 1, removeKey kv.1 c) := by
  cases c with
  | mk d l ms cs =>
    simp [cleanupStep, h, removeEntry, removeKey, hkey, eraseKey_idem]

theorem eraseKeys_cons {k : Key} {ks : List Key} {d : List (Key × CacheEntry)} :
    eraseKeys (k :: ks) d = eraseKeys ks (eraseKey k d) := rfl

theorem cleanup_fold (now : Nat) :
    ∀ (l : List (Key × CacheEntry)) (n : Nat) (c : Cache),
      Invariant c →
      (∀ kv ∈ l, kv.2.key = kv.1) →
      (∀ kv ∈ l, lookupEntry kv.1 c.data = some kv.2) →
      (l.map Prod.fst).Nodup →
      Invariant (l.foldl (cleanupStep now) (n, c)).2 ∧
      (l.foldl (cleanupStep now) (n, c)).1
        = n + (l.filter (fun kv => isExpired now kv.2)).length ∧
      (l.foldl (cleanupStep now) (n, c)).2.data
        = eraseKeys ((l.filter (fun kv => isExpired now kv.2)).map Prod.fst) c.data ∧
      (l.foldl (cleanupStep now) (n, c)).2.maxSize = c.maxSize := by
  intro l
  induction l with
  | nil =>
    intro n c hI _ _ _
    exact ⟨hI, by simp, by simp [eraseKeys], rfl⟩
  | cons kv rest ih =>
    intro n c hI hkeys hlook hnd
    rw [List.map_cons, List.nodup_cons] at hnd
    cases hexp : isExpired now kv.2 with
    | false =>
      rw [List.foldl_cons, cleanupStep_not_expired hexp,
        @List.filter_cons_of_neg _ (fun x => isExpired now x.2) kv rest (by simp [hexp])]
      exact ih n c hI (fun kv' h' => hkeys kv' (List.mem_cons_of_mem _ h'))
        (fun kv' h' => hlook kv' (List.mem_cons_of_mem _ h')) hnd.2
    | true =>
      rw [List.foldl_cons, cleanupStep_expired (hkeys kv (List.mem_cons_self kv rest)) hexp,
        @List.filter_cons_of_pos _ (fun x => isExpired now x.2) kv rest hexp]
      have hIc : Invariant (removeKey kv.1 c) :=
        invariant_removeKey hI (lookup_mem_keys (hlook kv (List.mem_cons_self kv rest)))
      have hlook' : ∀ kv' ∈ rest, lookupEntry kv'.1 (removeKey kv.1 c).data = some kv'.2 := by
        intro kv' h'
        have hne : kv'.1 ≠ kv.1 := by
          intro heq
          exact hnd.1 (heq ▸ List.mem_map.2 ⟨kv', h', rfl⟩)
        show lookupEntry kv'.1 (eraseKey kv.1 c.data) = some kv'.2
        rw [lookup_eraseKey_ne hne]
        exact hlook kv' (List.mem_cons_of_mem _ h')
      obtain ⟨h1, h2, h3, h4⟩ := ih (n + 1) (removeKey kv.1 c) hIc
        (fun kv' h' => hkeys kv' (List.mem_cons_of_mem _ h')) hlook' hnd.2
      refine ⟨h1, ?_, ?_, h4⟩
      · rw [h2, List.length_cons]
        omega
      · rw [h3, List.map_cons, eraseKeys_cons]
        rfl

theorem invariant_cleanup {now : Nat} {c : Cache} (h : Invariant c) :
    Invariant (Cleanup now c).2 := by
  unfold Cleanup
  exact (cleanup_fold now c.data 0 c h h.2.2.2 (lookup_self_of_nodup h.nodup_keys)
    h.nodup_keys).1

theorem eraseKeys_eq_filter :
    ∀ (ks : List Key) (d : List (Key × CacheEntry)),
      eraseKeys ks d = d.filter (fun kv => decide (kv.1 ∉ ks)) := by
  intro ks
  induction ks with
  | nil =>
    intro d
    rw [eraseKeys]
    simp
  | cons k ks ih =>
    intro d
    rw [eraseKeys_cons, ih, eraseKey, List.filter_filter]
    apply List.filter_congr
    intro kv _
    by_cases h1 : kv.1 = k
    · simp [h1]
    · by_cases h2 : kv.1 ∈ ks <;> simp [h1, h2]

theorem cleanup_spec {now : Nat} {c : Cache} (h : Invariant c) :
    (Cleanup now c).1 = (c.data.filter (fun kv => isExpired now kv.2)).length ∧
    (Cleanup now c).2.data = c.data.filter (fun kv => !(isExpired now kv.2)) ∧
    (Cleanup now c).2.maxSize = c.maxSize := by
  obtain ⟨h1, h2, h3, h4⟩ := cleanup_fold now c.data 0 c h h.2.2.2
    (lookup_self_of_nodup h.nodup_keys) h.nodup_keys
  refine ⟨?_, ?_, ?_⟩
  · unfold Cleanup
    rw [h2]
    omega
  · unfold Cleanup
    rw [h3, eraseKeys_eq_filter]
    apply List.filter_congr
    intro kv hkv
    by_cases hexp : isExpired now kv.2 = true
    · have hmem : kv.1 ∈ (c.data.filter (fun x => isExpired now x.2)).map Prod.fst :=
        List.mem_map.2 ⟨kv, List.mem_filter.2 ⟨hkv, hexp⟩, rfl⟩
      simp [hmem, hexp]
    · have hmem : kv.1 ∉ (c.data.filter (fun x => isExpired now x.2)).map Prod.fst := by
        intro hin
        obtain ⟨kv', hkv', hfst⟩ := List.mem_map.1 hin
        have hkv'' := List.mem_filter.1 hkv'
        have : kv' = kv := nodup_keys_inj h.nodup_keys hkv''.1 hkv hfst
        rw [this] at hkv''
        exact hexp hkv''.2
      have hexp' : isExpired now kv.2 = false := by
        cases hx : isExpired now kv.2
        · rfl
        · exact absurd hx hexp
      simp [hmem, hexp']
  · unfold Cleanup
    exact h4

theorem lookup_filter_of_none {q : CacheEntry → Bool} {k : Key} {d : List (Key × CacheEntry)}
    (hl : lookupEntry k d = none) :
    lookupEntry k (d.filter (fun kv => q kv.2)) = none := by
  rw [lookup_eq_none] at hl ⊢
  intro hin
  obtain ⟨kv, hkv, hfst⟩ := List.mem_map.1 hin
  exact hl (List.mem_map.2 ⟨kv, List.mem_of_mem_filter hkv, hfst⟩)

theorem lookup_filter_of_pos {q : CacheEntry → Bool} {k : Key} {e : CacheEntry} :
    ∀ {d : List (Key × CacheEntry)}, (d.map Prod.fst).Nodup →
      lookupEntry k d = some e → q e = true →
      lookupEntry k (d.filter (fun kv => q kv.2)) = some e := by
  intro d
  induction d with
  | nil => intro _ hl; simp [lookupEntry] at hl
  | cons a rest ih =>
    intro hnd hl hq
    rw [List.map_cons, List.nodup_cons] at hnd
    rw [lookupEntry] at hl
    by_cases hk : a.1 = k
    · rw [if_pos hk] at hl
      injection hl with hl
      rw [@List.filter_cons_of_pos _ (fun kv => q kv.2) a rest (by simp only []; rw [hl]; exact hq),
        lookupEntry, if_pos hk, hl]
    · rw [if_neg hk] at hl
      by_cases hqa : q a.2 = true
      · rw [@List.filter_cons_of_pos _ (fun kv => q kv.2) a rest hqa, lookupEntry, if_neg hk]
        exact ih hnd.2 hl hq
      · rw [@List.filter_cons_of_neg _ (fun kv => q kv.2) a rest hqa]
        exact ih hnd.2 hl hq

theorem lookup_filter_of_neg {q : CacheEntry → Bool} {k : Key} {e : CacheEntry} :
    ∀ {d : List (Key × CacheEntry)}, (d.map Prod.fst).Nodup →
      lookupEntry k d = some e → q e = false →
      lookupEntry k (d.filter (fun kv => q kv.2)) = none := by
  intro d
  induction d with
  | nil => intro _ hl; simp [lookupEntry] at hl
  | cons a rest ih =>
    intro hnd hl hq
    rw [List.map_cons, List.nodup_cons] at hnd
    rw [lookupEntry] at hl
    by_cases hk : a.1 = k
    · rw [if_pos hk] at hl
      injection hl with hl
      rw [@List.filter_cons_of_neg _ (fun kv => q kv.2) a rest (by simp [hl, hq])]
      rw [lookup_eq_none]
      intro hin
      obtain ⟨kv, hkv, hfst⟩ := List.mem_map.1 hin
      have : k ∈ rest.map Prod.fst :=
        List.mem_map.2 ⟨kv, List.mem_of_mem_filter hkv, hfst⟩
      exact hnd.1 (hk ▸ this)
    · rw [if_neg hk] at hl
      by_cases hqa : q a.2 = true
      · rw [@List.filter_cons_of_pos _ (fun kv => q kv.2) a rest hqa, lookupEntry, if_neg hk]
        exact ih hnd.2 hl hq
      · rw [@List.filter_cons_of_neg _ (fun kv => q kv.2) a rest hqa]
        exact ih hnd.2 hl hq

/-! ### LRU eviction order -/

theorem erase_getLast?_of_nodup {l : List Key} {b : Key} (hnd : l.Nodup)
    (hl : l.getLast? = some b) : l.erase b = l.dropLast := by
  rcases List.eq_nil_or_concat l with hnil | ⟨L, b', hL⟩
  · rw [hnil] at hl
    simp at hl
  · rw [List.concat_eq_append] at hL
    subst hL
    rw [List.getLast?_concat] at hl
    injection hl with hb
    subst hb
    have hbL : b' ∉ L := by
      intro hin
      have hdisj := List.disjoint_of_nodup_append hnd
      exact hdisj hin (List.mem_singleton.2 rfl)
    rw [List.erase_append_right _ hbL, List.dropLast_concat]
    simp

theorem evictLRU_back {c : Cache} (h : Invariant c) (hne : c.lru ≠ []) :
    (evictLRU c).lru = c.lru.dropLast := by
  have hlast := List.getLast?_eq_getLast c.lru hne
  have hmem : c.lru.getLast hne ∈ c.lru := List.getLast_mem hne
  obtain ⟨e, he⟩ := mem_keys_lookup (h.mem_lru_iff.1 hmem)
  simp only [evictLRU, hlast, he]
  rw [removeEntry_eq, h.entry_key he]
  show (c.lru.erase (c.lru.getLast hne)) = c.lru.dropLast
  exact erase_getLast?_of_nodup h.1 hlast

theorem set_atCapacity {now : Nat} {k : Key} {v : Value} {ttl : Option Nat} {c : Cache}
    (h : Invariant c) (hk : k ∉ c.lru) (hsize : c.currentSize = c.maxSize)
    (hne : c.lru ≠ []) :
    (Set now k v ttl c).lru = k :: c.lru.dropLast ∧
    (Set now k v ttl c).currentSize = c.currentSize ∧
    Invariant (Set now k v ttl c) ∧
    (Set now k v ttl c).maxSize = c.maxSize := by
  have hk' : k ∉ c.data.map Prod.fst := fun hm => hk (h.mem_lru_iff.2 hm)
  rw [Set_lookup_none (lookup_eq_none.2 hk')]
  set c2 : Cache := { c with data := mapInsert k (freshEntry now k v ttl) c.data,
                             lru := k :: c.lru,
                             currentSize := c.currentSize + 1 } with hc2
  have hI2 : Invariant c2 := invariant_insert h hk' rfl
  have hguard : c2.maxSize < c2.currentSize ∧ 0 < c2.lru.length := by
    constructor
    · show c.maxSize < c.currentSize + 1
      omega
    · show 0 < (k :: c.lru).length
      simp
  rw [evictLoop, if_pos hguard]
  have hne2 : c2.lru ≠ [] := by
    show k :: c.lru ≠ []
    simp
  have hback : (evictLRU c2).lru = c2.lru.dropLast := evictLRU_back hI2 hne2
  have hlen2 : (evictLRU c2).lru.length = c2.lru.length - 1 := evictLRU_lru_length hI2 (by simp)
  have hI3 : Invariant (evictLRU c2) := invariant_evictLRU hI2
  have hsize3 : (evictLRU c2).currentSize = c.currentSize := by
    have h1 := hI3.size_eq
    have h2 := hI2.size_eq
    have h3 : (evictLRU c2).data.length = c2.data.length - 1 := by
      have := hI3.lru_length
      have := hI2.lru_length
      omega
    have h4 : 0 < c2.data.length := by
      have := hI2.lru_length
      have : 0 < c2.lru.length := by simp
      omega
    have h5 : c2.currentSize = c.currentSize + 1 := rfl
    omega
  have hnoguard : ¬((evictLRU c2).maxSize < (evictLRU c2).currentSize ∧
      0 < (evictLRU c2).lru.length) := by
    intro hg
    have hms : (evictLRU c2).maxSize = c.maxSize := by
      rw [evictLRU_maxSize]
    rw [hms, hsize3] at hg
    omega
  rw [evictLoop_not_guard hnoguard]
  have hdrop : c2.lru.dropLast = k :: c.lru.dropLast := by
    show (k :: c.lru).dropLast = k :: c.lru.dropLast
    rcases List.eq_nil_or_concat c.lru with hnil | ⟨L, b, hL⟩
    · exact absurd hnil hne
    · rw [List.concat_eq_append] at hL
      rw [hL]
      have : k :: (L ++ [b]) = (k :: L) ++ [b] := rfl
      rw [this, List.dropLast_concat, List.dropLast_concat]
  refine ⟨?_, hsize3, hI3, ?_⟩
  · rw [hback, hdrop]
  · rw [evictLRU_maxSize]

theorem setAll_cons {o : Nat × Key × Value} {ops : List (Nat × Key × Value)} {c : Cache} :
    setAll (o :: ops) c = setAll ops (Set o.1 o.2.1 o.2.2 none c) := rfl

theorem setAll_fresh :
    ∀ (ops : List (Nat × Key × Value)) (c : Cache), Invariant c →
      (∀ o ∈ ops, o.2.1 ∉ c.lru) →
      (ops.map (fun o => o.2.1)).Nodup →
      c.currentSize + ops.length ≤ c.maxSize →
      Invariant (setAll ops c) ∧
      (setAll ops c).lru = (ops.map (fun o => o.2.1)).reverse ++ c.lru ∧
      (setAll ops c).currentSize = c.currentSize + ops.length ∧
      (setAll ops c).maxSize = c.maxSize := by
  intro ops
  induction ops with
  | nil =>
    intro c hI _ _ _
    exact ⟨hI, by simp [setAll], by simp [setAll], rfl⟩
  | cons o rest ih =>
    intro c hI hfresh hnd hcap
    rw [List.map_cons, List.nodup_cons] at hnd
    have hko : o.2.1 ∉ c.lru := hfresh o (List.mem_cons_self o rest)
    have hcap1 : c.currentSize < c.maxSize := by
      simp only [List.length_cons] at hcap
      omega
    have hstep := @set_fresh o.1 o.2.1 o.2.2 none c hI hko hcap1
    rw [setAll_cons, hstep]
    have hko' : o.2.1 ∉ c.data.map Prod.fst := fun hm => hko (hI.mem_lru_iff.2 hm)
    have hI' : Invariant { c with
        data := mapInsert o.2.1 (freshEntry o.1 o.2.1 o.2.2 none) c.data,
        lru := o.2.1 :: c.lru,
        currentSize := c.currentSize + 1 } := invariant_insert hI hko' rfl
    obtain ⟨ih1, ih2, ih3, ih4⟩ := ih _ hI'
      (by
        intro o' ho'
        show o'.2.1 ∉ o.2.1 :: c.lru
        intro hin
        rcases List.mem_cons.1 hin with heq | hin'
        · exact hnd.1 (heq ▸ List.mem_map.2 ⟨o', ho', rfl⟩)
        · exact hfresh o' (List.mem_cons_of_mem _ ho') hin')
      hnd.2
      (by
        show c.currentSize + 1 + (rest.length : Int) ≤ c.maxSize
        simp only [List.length_cons] at hcap
        omega)
    refine ⟨ih1, ?_, ?_, ?_⟩
    · rw [ih2]
      show _ = ((o.2.1 :: rest.map (fun o => o.2.1)).reverse) ++ c.lru
      rw [List.reverse_cons, List.append_assoc]
      rfl
    · rw [ih3]
      show c.currentSize + 1 + (rest.length : Int) = c.currentSize + ((o :: rest).length : Int)
      simp only [List.length_cons]
      omega
    · rw [ih4]

/-! ### Hit rate -/

theorem hitRate_empty {c : Cache} (h : c.data = []) : calculateHitRate c = 0 := by
  rw [calculateHitRate, h]
  simp

theorem hitRate_formula {c : Cache} :
    calculateHitRate c
      = ((c.data.filter (fun kv => decide (0 < kv.2.accessCount))).length : ℚ)
          / (c.data.length : ℚ) := by
  rw [calculateHitRate]
  by_cases hsum : (c.data.map (fun kv => kv.2.accessCount)).sum = 0
  · have hall : ∀ kv ∈ c.data, kv.2.accessCount = 0 := by
      intro kv hkv
      exact List.sum_eq_zero_iff.1 hsum _ (List.mem_map.2 ⟨kv, hkv, rfl⟩)
    have hfil : c.data.filter (fun kv => decide (0 < kv.2.accessCount)) = [] := by
      rw [List.filter_eq_nil_iff]
      intro kv hkv
      simp [hall kv hkv]
    rw [if_pos hsum, hfil]
    simp
  · rw [if_neg hsum]

theorem Delete_of_lookup_none {k : Key} {c : Cache} (hl : lookupEntry k c.data = none) :
    Delete k c = (false, c) := by
  unfold Delete
  rw [hl]

theorem Delete_of_lookup_some {k : Key} {c : Cache} {e : CacheEntry}
    (hl : lookupEntry k c.data = some e) :
    Delete k c = (true, removeEntry c e) := by
  unfold Delete
  rw [hl]

theorem Get_none {now : Nat} {k : Key} {c : Cache} (hl : lookupEntry k c.data = none) :
    Get now k c = (none, c) := by
  unfold Get
  rw [hl]

theorem Get_expired {now : Nat} {k : Key} {c : Cache} {e : CacheEntry}
    (hl : lookupEntry k c.data = some e) (hexp : isExpired now e = true) :
    Get now k c = (none, removeEntry c e) := by
  unfold Get
  rw [hl]
  show (if isExpired now e = true then (none, removeEntry c e) else _) = _
  rw [if_pos hexp]

theorem Get_hit {now : Nat} {k : Key} {c : Cache} {e : CacheEntry}
    (hl : lookupEntry k c.data = some e) (hexp : isExpired now e = false) :
    Get now k c
      = (some e.value,
          { c with
              data := mapInsert k
                { e with accessCount := e.accessCount + 1, lastAccessed := now } c.data,
              lru := k :: c.lru.erase k }) := by
  unfold Get
  rw [hl]
  show (if isExpired now e = true then _ else _) = _
  rw [if_neg (by rw [hexp]; exact Bool.false_ne_true)]

theorem set_overwrite {now : Nat} {k : Key} {v : Value} {ttl : Option Nat} {c : Cache}
    {old : CacheEntry} (h : Invariant c) (hcap : c.currentSize ≤ c.maxSize)
    (hl : lookupEntry k c.data = some old) :
    Set now k v ttl c
      = { c with data := mapInsert k (freshEntry now k v ttl) (eraseKey k c.data),
                 lru := k :: c.lru.erase k,
                 currentSize := c.currentSize - 1 + 1 } := by
  rw [Set_lookup_some hl (h.entry_key hl)]
  apply evictLoop_not_guard
  intro hg
  have h1 : c.maxSize < c.currentSize - 1 + 1 := hg.1
  omega

/-! ### The claims -/

/-- C1: every cache operation (`Get`, `Set`, `Delete`, `Clear`, `Cleanup`)
preserves the invariant that the recency list holds exactly the keys of the
index (each indexed entry has exactly one list node and vice versa, stated
as a duplicate-free permutation) and that `currentSize` equals the
cardinality of both structures.  Every removal path, including `Cleanup`
with its second, redundant map delete after `removeEntry`, removes the
entry from both structures together and decrements the size exactly once. -/
theorem claim_C1 {c : Cache} (h : Invariant c) (now : Nat) (k : Key) (v : Value)
    (ttl : Option Nat) :
    Invariant (Get now k c).2 ∧
    Invariant (Set now k v ttl c) ∧
    Invariant (Delete k c).2 ∧
    Invariant (Clear c) ∧
    Invariant (Cleanup now c).2 :=
  ⟨invariant_get h, invariant_set h, invariant_delete h, invariant_clear, invariant_cleanup h⟩

theorem claim_C1_witness :
    Invariant (Get 10 "k" (Set 0 "k" [7] (some 5) (NewCache 2))).2 ∧
    Invariant (Set 10 "k" [1] none (Set 0 "k" [7] (some 5) (NewCache 2))) ∧
    Invariant (Delete "k" (Set 0 "k" [7] (some 5) (NewCache 2))).2 ∧
    Invariant (Clear (Set 0 "k" [7] (some 5) (NewCache 2))) ∧
    Invariant (Cleanup 10 (Set 0 "k" [7] (some 5) (NewCache 2))).2 :=
  @claim_C1 (Set 0 "k" [7] (some 5) (NewCache 2)) (by decide) 10 "k" [1] none

/-- C2: for every well-formed cache with nonnegative capacity, any `Set`
call returns with at most `maxSize` entries: after inserting, the eviction
loop pops the back of the recency list until `currentSize ≤ maxSize`. -/
theorem claim_C2 {c : Cache} (h : Invariant c) (h0 : 0 ≤ c.maxSize)
    (now : Nat) (k : Key) (v : Value) (ttl : Option Nat) :
    (Set now k v ttl c).currentSize ≤ c.maxSize ∧
    ((Set now k v ttl c).data.length : Int) ≤ c.maxSize ∧
    ((Set now k v ttl c).lru.length : Int) ≤ c.maxSize := by
  have hb := @set_bound now k v ttl c h h0
  have hI := @invariant_set now k v ttl c h
  refine ⟨hb, ?_, ?_⟩
  · rw [← hI.size_eq]
    exact hb
  · have := hI.lru_length
    have := hI.size_eq
    omega

theorem claim_C2_witness :
    0 ≤ (NewCache 1).maxSize ∧
    ((Set 3 "b" [2] none (Set 0 "a" [1] none (NewCache 1))).currentSize
        ≤ (Set 0 "a" [1] none (NewCache 1)).maxSize ∧
      ((Set 3 "b" [2] none (Set 0 "a" [1] none (NewCache 1))).data.length : Int)
        ≤ (Set 0 "a" [1] none (NewCache 1)).maxSize ∧
      ((Set 3 "b" [2] none (Set 0 "a" [1] none (NewCache 1))).lru.length : Int)
        ≤ (Set 0 "a" [1] none (NewCache 1)).maxSize) :=
  ⟨by decide, claim_C2 (by decide) (by decide) 3 "b" [2] none⟩

/-- C3: a `Get` on a key whose entry carries an already-passed expiry
returns not-found and removes the entry from both the index and the
recency list (lazy expiration), so `Get` never returns the value of an
expired entry, even if `Cleanup` has never run. -/
theorem claim_C3 {c : Cache} {k : Key} {e : CacheEntry} {t now : Nat} (h : Invariant c)
    (hl : lookupEntry k c.data = some e) (ht : e.expiresAt = some t) (htt : t < now) :
    (Get now k c).1 = none ∧
    lookupEntry k (Get now k c).2.data = none ∧
    k ∉ (Get now k c).2.lru := by
  have hexp : isExpired now e = true := by simp [isExpired, ht, htt]
  have hek : e.key = k := h.entry_key hl
  rw [Get_expired hl hexp]
  refine ⟨rfl, ?_, ?_⟩
  · show lookupEntry k (eraseKey e.key c.data) = none
    rw [hek]
    exact lookup_eraseKey_self
  · show k ∉ c.lru.erase e.key
    rw [hek]
    intro hin
    exact ((h.1.mem_erase_iff).1 hin).1 rfl

theorem claim_C3_witness :
    (Get 10 "k" (Set 0 "k" [7] (some 5) (NewCache 3))).1 = none ∧
    lookupEntry "k" (Get 10 "k" (Set 0 "k" [7] (some 5) (NewCache 3))).2.data = none ∧
    "k" ∉ (Get 10 "k" (Set 0 "k" [7] (some 5) (NewCache 3))).2.lru :=
  @claim_C3 (Set 0 "k" [7] (some 5) (NewCache 3)) "k"
    { key := "k", value := [7], expiresAt := some 5,
      createdAt := 0, accessCount := 0, lastAccessed := 0 } 5 10
    (by decide) (by decide) rfl (by decide)

/-- C5: overwriting a key that already has an entry removes the old
recency position, installs a fresh entry at the front of the recency
list with the new value, `accessCount = 0`, `createdAt = lastAccessedAt
= now`, and `expiresAt` derived solely from the new ttl; in particular
with `ttl = none` any later `Get` returns the new value (the old TTL
never carries over). -/
theorem claim_C5 {c : Cache} {k : Key} {old : CacheEntry} (h : Invariant c)
    (hcap : c.currentSize ≤ c.maxSize) (hl : lookupEntry k c.data = some old)
    (now : Nat) (v : Value) (ttl : Option Nat) :
    (Set now k v ttl c).lru = k :: c.lru.erase k ∧
    lookupEntry k (Set now k v ttl c).data
      = some { key := k, value := v, expiresAt := ttl.map (fun d => now + d),
               createdAt := now, accessCount := 0, lastAccessed := now } ∧
    (ttl = none → ∀ t, (Get t k (Set now k v ttl c)).1 = some v) := by
  rw [set_overwrite h hcap hl]
  refine ⟨rfl, lookup_mapInsert_self, ?_⟩
  intro httl t
  subst httl
  have hlk : lookupEntry k
      (mapInsert k (freshEntry now k v none) (eraseKey k c.data))
      = some (freshEntry now k v none) := lookup_mapInsert_self
  rw [Get_hit hlk (by simp [isExpired, freshEntry])]
  rfl

theorem claim_C5_witness :
    (Set 1 "k" [2] none (Set 0 "k" [1] (some 3600) (NewCache 2))).lru
      = "k" :: (Set 0 "k" [1] (some 3600) (NewCache 2)).lru.erase "k" ∧
    lookupEntry "k" (Set 1 "k" [2] none (Set 0 "k" [1] (some 3600) (NewCache 2))).data
      = some { key := "k", value := [2], expiresAt := none,
               createdAt := 1, accessCount := 0, lastAccessed := 1 } ∧
    (Get 999999 "k" (Set 1 "k" [2] none (Set 0 "k" [1] (some 3600) (NewCache 2)))).1
      = some [2] := by
  have h := @claim_C5 (Set 0 "k" [1] (some 3600) (NewCache 2)) "k"
    { key := "k", value := [1], expiresAt := some 3600,
      createdAt := 0, accessCount := 0, lastAccessed := 0 }
    (by decide) (by decide) (by decide) 1 [2] none
  exact ⟨h.1, h.2.1, h.2.2 rfl 999999⟩

/-- C7: `Delete` returns true and removes the entry from both structures
whenever an entry is physically present, expired or not; it returns false
and leaves the cache unchanged when no entry is present; deleting the
same key twice returns true then false. -/
theorem claim_C7 {c : Cache} (h : Invariant c) (k : Key) :
    (lookupEntry k c.data = none → Delete k c = (false, c)) ∧
    (∀ e, lookupEntry k c.data = some e →
      (Delete k c).1 = true ∧
      lookupEntry k (Delete k c).2.data = none ∧
      k ∉ (Delete k c).2.lru ∧
      (Delete k (Delete k c).2).1 = false) := by
  constructor
  · exact Delete_of_lookup_none
  · intro e hl
    have hek : e.key = k := h.entry_key hl
    have hnone : lookupEntry k (removeEntry c e).data = none := by
      show lookupEntry k (eraseKey e.key c.data) = none
      rw [hek]
      exact lookup_eraseKey_self
    rw [Delete_of_lookup_some hl]
    refine ⟨rfl, hnone, ?_, ?_⟩
    · show k ∉ c.lru.erase e.key
      rw [hek]
      intro hin
      exact ((h.1.mem_erase_iff).1 hin).1 rfl
    · rw [Delete_of_lookup_none hnone]

theorem claim_C7_witness :
    (Delete "zz" (Set 0 "k" [7] (some 5) (NewCache 2))
        = (false, Set 0 "k" [7] (some 5) (NewCache 2))) ∧
    (Delete "k" (Set 0 "k" [7] (some 5) (NewCache 2))).1 = true ∧
    lookupEntry "k" (Delete "k" (Set 0 "k" [7] (some 5) (NewCache 2))).2.data = none ∧
    "k" ∉ (Delete "k" (Set 0 "k" [7] (some 5) (NewCache 2))).2.lru ∧
    (Delete "k" (Delete "k" (Set 0 "k" [7] (some 5) (NewCache 2))).2).1 = false := by
  have h1 := (@claim_C7 (Set 0 "k" [7] (some 5) (NewCache 2)) (by decide) "zz").1 (by decide)
  have h2 := (@claim_C7 (Set 0 "k" [7] (some 5) (NewCache 2)) (by decide) "k").2
    { key := "k", value := [7], expiresAt := some 5,
      createdAt := 0, accessCount := 0, lastAccessed := 0 } (by decide)
  exact ⟨h1, h2.1, h2.2.1, h2.2.2.1, h2.2.2.2⟩

/-- C8 counterexample: constructing a cache with capacity zero is not
rejected: `NewCache 0` returns an ordinary, well-formed, empty cache
(there is no error path in construction at all), and the misconfiguration
surfaces only at runtime, where a `Set` on the zero-capacity cache leaves
it empty. -/
theorem claim_C8_counterexample :
    NewCache 0 = { data := [], lru := [], maxSize := 0, currentSize := 0 } ∧
    Invariant (NewCache 0) ∧
    (Set 0 "k" [1] none (NewCache 0)).currentSize = 0 ∧
    (Set 0 "k" [1] none (NewCache 0)).data = [] :=
  ⟨rfl, by decide, by decide, by decide⟩

/-- C8 amended: `NewCache` performs no validation of its capacity
argument: for every capacity, including zero, construction succeeds and
returns a well-formed empty cache; a zero capacity is never reported as
a configuration error and is discovered only through runtime behaviour
of `Set`. -/
theorem claim_C8_amended (maxSize : Int) :
    NewCache maxSize = { data := [], lru := [], maxSize := maxSize, currentSize := 0 } ∧
    Invariant (NewCache maxSize) :=
  ⟨rfl, invariant_newCache maxSize⟩

/-- C9: the hit rate reported by `Stats` is the resident-key fraction:
for a nonempty cache it equals (number of live entries with
`accessCount > 0`) divided by (number of live entries), as an exact
rational, and for an empty cache it is 0 — not a request-level
hits-over-requests ratio. -/
theorem claim_C9 (c : Cache) :
    (c.data ≠ [] →
      (Stats c).hitRate
        = ((c.data.filter (fun kv => decide (0 < kv.2.accessCount))).length : ℚ)
            / (c.data.length : ℚ)) ∧
    (c.data = [] → (Stats c).hitRate = 0) := by
  constructor
  · intro _
    show calculateHitRate c = _
    exact hitRate_formula
  · intro hnil
    show calculateHitRate c = 0
    exact hitRate_empty hnil

theorem claim_C9_witness :
    (Get 1 "k" (Set 0 "k" [7] none (Set 0 "j" [1] none (NewCache 3)))).2.data ≠ [] ∧
    (Stats (Get 1 "k" (Set 0 "k" [7] none (Set 0 "j" [1] none (NewCache 3)))).2).hitRate
      = (((Get 1 "k" (Set 0 "k" [7] none (Set 0 "j" [1] none (NewCache 3)))).2.data.filter
            (fun kv => decide (0 < kv.2.accessCount))).length : ℚ)
          / ((Get 1 "k" (Set 0 "k" [7] none (Set 0 "j" [1] none (NewCache 3)))).2.data.length : ℚ) :=
  ⟨by decide,
    (claim_C9 (Get 1 "k" (Set 0 "k" [7] none (Set 0 "j" [1] none (NewCache 3)))).2).1 (by decide)⟩

/-- C10: a zero-capacity cache never retains an entry: on any well-formed
cache whose `maxSize` is 0 (as produced by `NewCache 0`, which
construction accepts), every `Set` returns with both structures empty and
size 0, and any subsequent `Get` returns not-found. -/
theorem claim_C10 {c : Cache} (h : Invariant c) (hms : c.maxSize = 0)
    (now : Nat) (k : Key) (v : Value) (ttl : Option Nat) :
    (Set now k v ttl c).data = [] ∧
    (Set now k v ttl c).lru = [] ∧
    (Set now k v ttl c).currentSize = 0 ∧
    ∀ t k', (Get t k' (Set now k v ttl c)).1 = none := by
  have hI : Invariant (Set now k v ttl c) := invariant_set h
  have hb : (Set now k v ttl c).currentSize ≤ c.maxSize :=
    @set_bound now k v ttl c h (le_of_eq hms.symm)
  have h0 : (Set now k v ttl c).currentSize ≤ 0 := by omega
  obtain ⟨hd, hlru, hs⟩ := hI.data_nil_of_size_nonpos h0
  refine ⟨hd, hlru, hs, ?_⟩
  intro t k'
  unfold Get
  rw [hd]
  simp [lookupEntry]

theorem claim_C10_witness :
    Invariant (NewCache 0) ∧
    ((Set 0 "a" [1] none (NewCache 0)).data = [] ∧
      (Set 0 "a" [1] none (NewCache 0)).lru = [] ∧
      (Set 0 "a" [1] none (NewCache 0)).currentSize = 0) ∧
    (Get 1 "a" (Set 0 "a" [1] none (NewCache 0))).1 = none := by
  have h := @claim_C10 (NewCache 0) (by decide) rfl 0 "a" [1] none
  exact ⟨by decide, ⟨h.1, h.2.1, h.2.2.1⟩, h.2.2.2 1 "a"⟩

/-- C6: `Cleanup` removes exactly those entries whose expiry is set and
has passed, removing each from both the index and the recency list,
leaves every unexpired and TTL-less entry unchanged in the index, and
returns the number of entries it removed. -/
theorem claim_C6 {c : Cache} (h : Invariant c) (now : Nat) :
    (Cleanup now c).1 = (c.data.filter (fun kv => isExpired now kv.2)).length ∧
    (Cleanup now c).2.data = c.data.filter (fun kv => !(isExpired now kv.2)) ∧
    (∀ k e, lookupEntry k c.data = some e → isExpired now e = true →
      lookupEntry k (Cleanup now c).2.data = none ∧ k ∉ (Cleanup now c).2.lru) ∧
    (∀ k e, lookupEntry k c.data = some e → isExpired now e = false →
      lookupEntry k (Cleanup now c).2.data = some e) := by
  obtain ⟨h1, h2, h3⟩ := @cleanup_spec now c h
  have hInv : Invariant (Cleanup now c).2 := @invariant_cleanup now c h
  refine ⟨h1, h2, ?_, ?_⟩
  · intro k e hl hexp
    have hq : (!(isExpired now e)) = false := by simp [hexp]
    have hnone : lookupEntry k (Cleanup now c).2.data = none := by
      rw [h2]
      exact @lookup_filter_of_neg (fun x => !(isExpired now x)) k e c.data h.nodup_keys hl hq
    refine ⟨hnone, ?_⟩
    intro hin
    exact (lookup_eq_none.1 hnone) (hInv.mem_lru_iff.1 hin)
  · intro k e hl hexp
    have hq : (!(isExpired now e)) = true := by simp [hexp]
    rw [h2]
    exact @lookup_filter_of_pos (fun x => !(isExpired now x)) k e c.data h.nodup_keys hl hq

theorem claim_C6_witness :
    (Cleanup 10 (Set 1 "m" [2] none (Set 0 "k" [7] (some 5) (NewCache 3)))).1
      = ((Set 1 "m" [2] none (Set 0 "k" [7] (some 5) (NewCache 3))).data.filter
          (fun kv => isExpired 10 kv.2)).length ∧
    lookupEntry "k"
        (Cleanup 10 (Set 1 "m" [2] none (Set 0 "k" [7] (some 5) (NewCache 3)))).2.data
      = none ∧
    "k" ∉ (Cleanup 10 (Set 1 "m" [2] none (Set 0 "k" [7] (some 5) (NewCache 3)))).2.lru ∧
    lookupEntry "m"
        (Cleanup 10 (Set 1 "m" [2] none (Set 0 "k" [7] (some 5) (NewCache 3)))).2.data
      = some { key := "m", value := [2], expiresAt := none,
               createdAt := 1, accessCount := 0, lastAccessed := 1 } := by
  have h := @claim_C6 (Set 1 "m" [2] none (Set 0 "k" [7] (some 5) (NewCache 3))) (by decide) 10
  have h3 := h.2.2.1 "k"
    { key := "k", value := [7], expiresAt := some 5,
      createdAt := 0, accessCount := 0, lastAccessed := 0 } (by decide) (by decide)
  have h4 := h.2.2.2 "m"
    { key := "m", value := [2], expiresAt := none,
      createdAt := 1, accessCount := 0, lastAccessed := 1 } (by decide) (by decide)
  exact ⟨h.1, h3.1, h3.2, h4⟩

theorem setAll_append {l1 l2 : List (Nat × Key × Value)} {c : Cache} :
    setAll (l1 ++ l2) c = setAll l2 (setAll l1 c) :=
  List.foldl_append _ _ _ _

/-- C4: with capacity N ≥ 1, a sequence of Set calls inserting N + 1
distinct keys without TTL into a fresh cache, with no intervening reads,
triggers exactly one eviction, which removes exactly the first-inserted
key: the final cache has N entries, its recency list is the last key
followed by the middle keys in reverse insertion order, the first key is
gone from both structures, and every later key is present.  Moreover
every eviction step removes the node at the back of the recency list. -/
theorem claim_C4 (op0 opL : Nat × Key × Value) (mid : List (Nat × Key × Value)) (N : Nat)
    (hN : N = mid.length + 1)
    (hnd : ((op0 :: (mid ++ [opL])).map (fun o => o.2.1)).Nodup)
    (cfin : Cache) (hc : cfin = setAll (op0 :: (mid ++ [opL])) (NewCache (N : Int))) :
    cfin.currentSize = (N : Int) ∧
    cfin.lru = opL.2.1 :: (mid.map (fun o => o.2.1)).reverse ∧
    op0.2.1 ∉ cfin.data.map Prod.fst ∧
    op0.2.1 ∉ cfin.lru ∧
    (∀ o ∈ mid, o.2.1 ∈ cfin.data.map Prod.fst) ∧
    opL.2.1 ∈ cfin.data.map Prod.fst ∧
    (∀ c' : Cache, Invariant c' → c'.lru ≠ [] → (evictLRU c').lru = c'.lru.dropLast) := by
  subst hc
  subst hN
  rw [List.map_cons, List.nodup_cons, List.map_append] at hnd
  obtain ⟨h0nin, hrest⟩ := hnd
  rw [List.nodup_append] at hrest
  obtain ⟨hmidnd, -, hdisj⟩ := hrest
  have hLnotmid : opL.2.1 ∉ mid.map (fun o => o.2.1) := by
    intro hin
    exact hdisj hin (by simp)
  have h0notmid : op0.2.1 ∉ mid.map (fun o => o.2.1) := by
    intro hin
    exact h0nin (List.mem_append.2 (Or.inl hin))
  have h0neL : op0.2.1 ≠ opL.2.1 := by
    intro heq
    exact h0nin (List.mem_append.2 (Or.inr (by simp [heq])))
  have hfold : setAll (op0 :: (mid ++ [opL])) (NewCache ((mid.length + 1 : Nat) : Int))
      = Set opL.1 opL.2.1 opL.2.2 none
          (setAll (op0 :: mid) (NewCache ((mid.length + 1 : Nat) : Int))) := by
    show setAll ((op0 :: mid) ++ [opL]) _ = _
    rw [setAll_append]
    rfl
  obtain ⟨hI1, hlru1, hsize1, hms1⟩ :=
    setAll_fresh (op0 :: mid) (NewCache ((mid.length + 1 : Nat) : Int))
      (invariant_newCache _)
      (by intro o _; show o.2.1 ∉ ([] : List Key); simp)
      (by
        rw [List.map_cons, List.nodup_cons]
        exact ⟨h0notmid, hmidnd⟩)
      (by
        show (0 : Int) + ((op0 :: mid).length : Int) ≤ ((mid.length + 1 : Nat) : Int)
        simp)
  have hlru1' : (setAll (op0 :: mid) (NewCache ((mid.length + 1 : Nat) : Int))).lru
      = (mid.map (fun o => o.2.1)).reverse ++ [op0.2.1] := by
    rw [hlru1]
    show ((op0 :: mid).map (fun o => o.2.1)).reverse ++ [] = _
    rw [List.append_nil, List.map_cons, List.reverse_cons]
  have hsize1' : (setAll (op0 :: mid) (NewCache ((mid.length + 1 : Nat) : Int))).currentSize
      = ((mid.length + 1 : Nat) : Int) := by
    rw [hsize1]
    show (0 : Int) + ((op0 :: mid).length : Int) = _
    simp
  have hms1' : (setAll (op0 :: mid) (NewCache ((mid.length + 1 : Nat) : Int))).maxSize
      = ((mid.length + 1 : Nat) : Int) := hms1
  have hk : opL.2.1 ∉ (setAll (op0 :: mid) (NewCache ((mid.length + 1 : Nat) : Int))).lru := by
    rw [hlru1']
    intro hin
    rcases List.mem_append.1 hin with hin | hin
    · exact hLnotmid (List.mem_reverse.1 hin)
    · exact h0neL ((List.mem_singleton.1 hin).symm)
  have hsizecap : (setAll (op0 :: mid) (NewCache ((mid.length + 1 : Nat) : Int))).currentSize
      = (setAll (op0 :: mid) (NewCache ((mid.length + 1 : Nat) : Int))).maxSize := by
    rw [hsize1', hms1']
  have hne1 : (setAll (op0 :: mid) (NewCache ((mid.length + 1 : Nat) : Int))).lru ≠ [] := by
    rw [hlru1']
    simp
  obtain ⟨hflru, hfsize, hfI, hfms⟩ :=
    @set_atCapacity opL.1 opL.2.1 opL.2.2 none
      (setAll (op0 :: mid) (NewCache ((mid.length + 1 : Nat) : Int))) hI1 hk hsizecap hne1
  rw [hfold]
  have hlrufin : (Set opL.1 opL.2.1 opL.2.2 none
      (setAll (op0 :: mid) (NewCache ((mid.length + 1 : Nat) : Int)))).lru
      = opL.2.1 :: (mid.map (fun o => o.2.1)).reverse := by
    rw [hflru, hlru1', List.dropLast_concat]
  have hnotlru : op0.2.1 ∉ (Set opL.1 opL.2.1 opL.2.2 none
      (setAll (op0 :: mid) (NewCache ((mid.length + 1 : Nat) : Int)))).lru := by
    rw [hlrufin]
    intro hin
    rcases List.mem_cons.1 hin with heq | hin
    · exact h0neL heq
    · exact h0notmid (List.mem_reverse.1 hin)
  refine ⟨?_, hlrufin, ?_, hnotlru, ?_, ?_, ?_⟩
  · rw [hfsize, hsize1']
  · intro hm
    exact hnotlru (hfI.mem_lru_iff.2 hm)
  · intro o ho
    refine hfI.mem_lru_iff.1 ?_
    rw [hlrufin]
    exact List.mem_cons_of_mem _ (List.mem_reverse.2 (List.mem_map.2 ⟨o, ho, rfl⟩))
  · refine hfI.mem_lru_iff.1 ?_
    rw [hlrufin]
    exact List.mem_cons_self _ _
  · intro c' hI' hne'
    exact evictLRU_back hI' hne'

theorem claim_C4_witness :
    (setAll [(0, "a", [1]), (1, "b", [2]), (2, "c", [3])] (NewCache 2)).currentSize = 2 ∧
    (setAll [(0, "a", [1]), (1, "b", [2]), (2, "c", [3])] (NewCache 2)).lru = ["c", "b"] ∧
    "a" ∉ (setAll [(0, "a", [1]), (1, "b", [2]), (2, "c", [3])] (NewCache 2)).data.map Prod.fst ∧
    "b" ∈ (setAll [(0, "a", [1]), (1, "b", [2]), (2, "c", [3])] (NewCache 2)).data.map Prod.fst ∧
    "c" ∈ (setAll [(0, "a", [1]), (1, "b", [2]), (2, "c", [3])] (NewCache 2)).data.map Prod.fst := by
  have h := claim_C4 (0, "a", [1]) (2, "c", [3]) [(1, "b", [2])] 2 rfl (by decide) _ rfl
  exact ⟨h.1, h.2.1, h.2.2.1, h.2.2.2.2.1 (1, "b", [2]) (by decide), h.2.2.2.2.2.1⟩

end DistCache
